import Mathlib

set_option autoImplicit false

/-
Shallow embedding of `src/settings.rs` from the rest-settings-service
repository: a settings manager that keeps an in-memory list of named
entries and persists each entry as one TOML file in a base directory.

External libraries (chrono, sha1/hex, the toml codec) and the operating
system (file creation / write success) are abstracted into an `Env`
record of oracles; a Rust `panic!`/`unwrap` failure is modelled as the
`none` result of an `Option`-returning function.  The filesystem is the
base directory's regular files, an association list from file name to
file contents.  Entry names containing a path separator, and the
degenerate names "." and "..", are outside the model (they would escape
the base directory, or denote no file at all).
-/

namespace RestSettings

/-- Payload values, mirroring `toml::Value` (floats and datetimes, which no
claim touches, are omitted). -/
inductive TomlValue where
  | str : String → TomlValue
  | int : Int → TomlValue
  | boolean : Bool → TomlValue
  | arr : List TomlValue → TomlValue
  | table : List (String × TomlValue) → TomlValue

/-- Mirrors `struct Header` in `settings.rs`: name, modified flag, content
hash and creation date. -/
structure Header where
  name : String
  modified : Bool
  hash : String
  date : String

/-- Mirrors `struct Content`: a header plus an optional settings payload. -/
structure Content where
  header : Header
  settings : Option TomlValue

/-- Mirrors `struct SettingsManager`: a base path and the in-memory ordered
list of entries. -/
structure SettingsManager where
  path : String
  settings : List Content

/-- Oracles for everything the manager calls outside its own code:
`now` is `chrono::Local::now().to_string()`, `sha1hex` is
`hex::encode(Sha1 digest)`, `toStringPretty` is `toml::to_string_pretty`
(`none` models the `Err` case), `fromStr` is `toml::from_str`, and
`createOk`/`writeOk` tell whether `File::create`/`write_all` succeed for a
given file name. -/
structure Env where
  now : String
  sha1hex : String → String
  toStringPretty : Content → Option String
  fromStr : String → Option Content
  createOk : String → Bool
  writeOk : String → Bool

/-- The base directory's regular files: file name paired with contents. -/
abbrev Fs := List (String × String)

/-- Writes a file: replaces the first binding of `name`, or appends a new
one.  Models `File::create` followed by `write_all`. -/
def fsWrite (fs : Fs) (name data : String) : Fs :=
  match fs with
  | [] => [(name, data)]
  | (n, d) :: rest =>
    if n = name then (name, data) :: rest else (n, d) :: fsWrite rest name data

/-- Reads a file's contents, first binding wins. -/
def fsRead (fs : Fs) (name : String) : Option String :=
  match fs with
  | [] => none
  | (n, d) :: rest => if n = name then some d else fsRead rest name

/-- Splits a character list at its last dot: `extSplit cs = some (b, a)`
iff `cs = b ++ dot :: a` with `a` dot-free; `none` iff `cs` has no dot. -/
def extSplit : List Char → Option (List Char × List Char)
  | [] => none
  | c :: cs =>
    match extSplit cs with
    | some (b, a) => some (c :: b, a)
    | none => if c = '.' then some ([], cs) else none

/-- Mirrors Rust `Path::extension` on a file name: the portion after the
last dot, or `none` when there is no dot or the only dot is the leading one
(hidden files such as ".config" have no extension). -/
def pathExtension (name : String) : Option String :=
  match extSplit name.toList with
  | none => none
  | some ([], _) => none
  | some (_, ext) => some (String.mk ext)

/-- Mirrors Rust `PathBuf::set_extension` on a file name: replaces the
current extension, or appends one when `pathExtension` is `none`. -/
def setExtension (name ext : String) : String :=
  match extSplit name.toList with
  | none => name ++ "." ++ ext
  | some ([], _) => name ++ "." ++ ext
  | some (stem, _) => String.mk stem ++ "." ++ ext

/-- File name `save` uses for an entry:
`Path::new(path).join(name)` followed by `set_extension("toml")`. -/
def saveFileName (name : String) : String :=
  setExtension name "toml"

/-- Date-stamping step of `push`: sets `header.date` to the current time
and clears `header.modified`; every other field (the prior `hash`
included) is kept. -/
def stampContent (env : Env) (c : Content) : Content :=
  { c with header := { c.header with date := env.now, modified := false } }

/-- Builds the entry `push` appends: stamps the content, serializes it
(the serialization still carries the prior `hash` value), and stores the
hex-encoded SHA-1 digest of that text in `header.hash`.  `none` models the
`unwrap` panic when `toml::to_string_pretty` fails. -/
def pushedEntry (env : Env) (c : Content) : Option Content :=
  let c1 := stampContent env c
  match env.toStringPretty c1 with
  | none => none
  | some txt => some { c1 with header := { c1.header with hash := env.sha1hex txt } }

/-- Mirrors `SettingsManager::push`.  The filesystem is threaded through
unchanged: the source method touches only the in-memory list.  A duplicate
name is a silent no-op; otherwise the stamped-and-hashed entry is appended.
-/
def SettingsManager.push (env : Env) (m : SettingsManager) (fs : Fs) (c : Content) :
    Option (SettingsManager × Fs) :=
  if (m.settings.find? fun s => s.header.name == c.header.name).isSome then
    some (m, fs)
  else
    match pushedEntry env c with
    | none => none
    | some c2 => some ({ m with settings := m.settings ++ [c2] }, fs)

/-- Body of `SettingsManager::save`, iterating the entry list.  For each
entry: `File::create` (failure panics, modelled by `none`), then
`toml::to_string_pretty` (failure panics), then `write_all`, whose result
the source discards with `let _ =`; on a failed write the file is left as
`File::create` truncated it, empty. -/
def saveAll (env : Env) (fs : Fs) : List Content → Option Fs
  | [] => some fs
  | s :: rest =>
    let fname := saveFileName s.header.name
    if env.createOk fname then
      match env.toStringPretty s with
      | none => none
      | some txt =>
        saveAll env (fsWrite fs fname (if env.writeOk fname then txt else "")) rest
    else none

/-- Mirrors `SettingsManager::save`: writes every in-memory entry. -/
def SettingsManager.save (env : Env) (fs : Fs) (m : SettingsManager) : Option Fs :=
  saveAll env fs m.settings

/-- One directory entry as `load` sees it: a file name and its contents;
`contents = none` models a `File::open`/`read_to_string` failure. -/
structure DirFile where
  name : String
  contents : Option String

/-- Result of `std::fs::read_dir`: `none` when the directory itself cannot
be read (the `unwrap` on `read_dir` panics); an inner `none` is an `Err`
directory entry, which `filter_map(Result::ok)` silently skips. -/
abbrev DirListing := Option (List (Option DirFile))

/-- Parses a list of files in order; any read or parse failure is the
`unwrap` panic of the source, modelled by `none`. -/
def parseAll (env : Env) : List DirFile → Option (List Content)
  | [] => some []
  | f :: rest =>
    match f.contents with
    | none => none
    | some txt =>
      match env.fromStr txt with
      | none => none
      | some c => (parseAll env rest).map fun cs => c :: cs

/-- The files `load` considers: `Ok` directory entries whose extension is
exactly "toml". -/
def matchingFiles (es : List (Option DirFile)) : List DirFile :=
  (es.filterMap id).filter fun f => pathExtension f.name == some "toml"

/-- Mirrors `SettingsManager::load`: reads the directory (panicking if that
fails), keeps the `.toml` files, and appends each parsed entry to the
in-memory list; any open/read/parse failure panics. -/
def SettingsManager.load (env : Env) (m : SettingsManager) (dir : DirListing) :
    Option SettingsManager :=
  match dir with
  | none => none
  | some es =>
    (parseAll env (matchingFiles es)).map fun cs =>
      { m with settings := m.settings ++ cs }

/-- Directory listing of a healthy filesystem: every file readable. -/
def dirOfFs (fs : Fs) : DirListing :=
  some (fs.map fun p => some ⟨p.1, some p.2⟩)

/-- Mirrors `impl Default for SettingsManager`: the path is the literal
string under "~/.config" (no tilde expansion happens anywhere), the entry
list is empty.  `pkg` stands for the compile-time `env!("CARGO_PKG_NAME")`,
whose manifest is not part of the sources. -/
def SettingsManager.mkDefault (pkg : String) : SettingsManager :=
  { path := "~/.config/" ++ pkg, settings := [] }

/-- Mirrors `SettingsManager::new`: start from the default, override the
path when one is supplied, run `init` (whose `create_dir_all` result the
source discards with `let _`), then load from the base path. -/
def SettingsManager.new (env : Env) (pkg : String) (path : Option String)
    (dir : DirListing) : Option SettingsManager :=
  let this := SettingsManager.mkDefault pkg
  let this := match path with
    | some p => { this with path := p }
    | none => this
  SettingsManager.load env this dir

/-! Basic lemmas about the embedded operations. -/

/-- The entry `push` appends, written out explicitly. -/
def hashedEntry (env : Env) (c : Content) (txt : String) : Content :=
  Content.mk (Header.mk c.header.name false (env.sha1hex txt) env.now) c.settings

theorem pushedEntry_eq (env : Env) (c : Content) (txt : String)
    (h : env.toStringPretty (stampContent env c) = some txt) :
    pushedEntry env c = some (hashedEntry env c txt) := by
  simp only [pushedEntry]
  rw [h]
  rfl

theorem pushedEntry_name (env : Env) (c e : Content) (h : pushedEntry env c = some e) :
    e.header.name = c.header.name := by
  cases henv : env.toStringPretty (stampContent env c) with
  | none => simp only [pushedEntry, henv] at h; exact Option.noConfusion h
  | some txt =>
      rw [pushedEntry_eq env c txt henv] at h
      injection h with h2
      rw [← h2]
      rfl

theorem find?_name_isSome_iff (m : SettingsManager) (c : Content) :
    (m.settings.find? fun s => s.header.name == c.header.name).isSome
      ↔ ∃ s ∈ m.settings, s.header.name = c.header.name := by
  rw [List.find?_isSome]
  simp

/-- C1: for every manager state and entry whose name is already present,
push is a no-op on the whole state (path, entries, count — and the
filesystem); in particular, after a successful first add on an empty
manager, a second add with the same name leaves the manager unchanged with
exactly one entry. -/
theorem push_duplicate_name_noop :
    (∀ (env : Env) (m : SettingsManager) (fs : Fs) (c : Content),
      (∃ s ∈ m.settings, s.header.name = c.header.name) →
      SettingsManager.push env m fs c = some (m, fs))
    ∧ (∀ (env env2 : Env) (p : String) (fs fs2 fs1 : Fs) (c c2 : Content)
        (m1 : SettingsManager),
      c2.header.name = c.header.name →
      SettingsManager.push env ⟨p, []⟩ fs c = some (m1, fs1) →
      SettingsManager.push env2 m1 fs2 c2 = some (m1, fs2) ∧ m1.settings.length = 1) := by
  constructor
  · intro env m fs c h
    unfold SettingsManager.push
    rw [if_pos ((find?_name_isSome_iff m c).mpr h)]
  · intro env env2 p fs fs2 fs1 c c2 m1 hname hpush
    unfold SettingsManager.push at hpush
    rw [if_neg (by simp [find?_name_isSome_iff])] at hpush
    cases he : pushedEntry env c with
    | none => rw [he] at hpush; exact absurd hpush (by simp)
    | some e =>
        rw [he] at hpush
        have hx : some ((⟨p, [e]⟩ : SettingsManager), fs) = some (m1, fs1) := hpush
        have hm1 : (⟨p, [e]⟩ : SettingsManager) = m1 := congrArg Prod.fst (Option.some.inj hx)
        subst hm1
        refine ⟨?_, rfl⟩
        unfold SettingsManager.push
        rw [if_pos ((find?_name_isSome_iff _ _).mpr
          ⟨e, List.mem_singleton.mpr rfl, by rw [pushedEntry_name env c e he, hname]⟩)]

/-- Concrete environment used by the witnesses: all I/O succeeds. -/
def envW : Env :=
  { now := "2020-01-01 00:00:00"
    sha1hex := fun s => "sha:" ++ s
    toStringPretty := fun _ => some "TXT"
    fromStr := fun _ => none
    createOk := fun _ => true
    writeOk := fun _ => true }

/-- Concrete entry used by the witnesses, as a caller would build it. -/
def cTest : Content :=
  { header := { name := "test", modified := true, hash := "h0", date := "d0" }
    settings := none }

/-- The entry `cTest` as `push` stores it under `envW`. -/
def cTestPushed : Content :=
  { header := { name := "test", modified := false, hash := "sha:TXT",
                date := "2020-01-01 00:00:00" }
    settings := none }

theorem push_duplicate_name_noop_witness :
    SettingsManager.push envW ⟨"/tmp", [cTestPushed]⟩ [] cTest
        = some (⟨"/tmp", [cTestPushed]⟩, [])
    ∧ (SettingsManager.push envW ⟨"/tmp", [cTestPushed]⟩ [("a", "b")] cTest
        = some (⟨"/tmp", [cTestPushed]⟩, [("a", "b")])
      ∧ (⟨"/tmp", [cTestPushed]⟩ : SettingsManager).settings.length = 1) :=
  ⟨push_duplicate_name_noop.1 envW ⟨"/tmp", [cTestPushed]⟩ [] cTest
      ⟨cTestPushed, List.mem_singleton.mpr rfl, rfl⟩,
   push_duplicate_name_noop.2 envW envW "/tmp" [] [("a", "b")] [] cTest cTest
      ⟨"/tmp", [cTestPushed]⟩ rfl rfl⟩

/-- C5: push on a name not yet present stamps the current date, clears the
modified flag, stores the hex SHA-1 digest of the stamped entry's
serialization in the hash field, appends exactly that entry at the end of
the in-memory sequence (count grows by one), and performs no disk write
(the filesystem component is returned unchanged). -/
theorem push_new_entry_spec (env : Env) (m : SettingsManager) (fs : Fs)
    (c : Content) (txt : String)
    (hdup : ∀ s ∈ m.settings, ¬ s.header.name = c.header.name)
    (hser : env.toStringPretty (stampContent env c) = some txt) :
    ∃ e : Content,
      SettingsManager.push env m fs c = some ({ m with settings := m.settings ++ [e] }, fs)
      ∧ e.header.name = c.header.name
      ∧ e.header.date = env.now
      ∧ e.header.modified = false
      ∧ e.header.hash = env.sha1hex txt
      ∧ e.settings = c.settings
      ∧ (m.settings ++ [e]).length = m.settings.length + 1 := by
  refine ⟨hashedEntry env c txt, ?_, rfl, rfl, rfl, rfl, rfl, by simp⟩
  unfold SettingsManager.push
  rw [if_neg (by rw [find?_name_isSome_iff]; push_neg; exact hdup)]
  rw [pushedEntry_eq env c txt hser]

theorem push_new_entry_spec_witness :
    ∃ e : Content,
      SettingsManager.push envW ⟨"/tmp", []⟩ [] cTest
          = some ({ path := "/tmp", settings := [] ++ [e] }, [])
      ∧ e.header.name = cTest.header.name
      ∧ e.header.date = envW.now
      ∧ e.header.modified = false
      ∧ e.header.hash = envW.sha1hex "TXT"
      ∧ e.settings = cTest.settings
      ∧ (([] : List Content) ++ [e]).length = ([] : List Content).length + 1 :=
  push_new_entry_spec envW ⟨"/tmp", []⟩ [] cTest "TXT" (by simp) rfl

/-- C10: push never panics when the stamped entry serializes successfully
(in particular the duplicate branch is always a clean return), and there
are inputs — a failing serialization — on which push does panic. -/
theorem push_panic_iff_serialize_failure :
    (∀ (env : Env) (m : SettingsManager) (fs : Fs) (c : Content),
      (env.toStringPretty (stampContent env c)).isSome →
      (SettingsManager.push env m fs c).isSome)
    ∧ (∃ (env : Env) (m : SettingsManager) (fs : Fs) (c : Content),
      SettingsManager.push env m fs c = none) := by
  constructor
  · intro env m fs c hser
    unfold SettingsManager.push
    by_cases hdup : (m.settings.find? fun s => s.header.name == c.header.name).isSome
    · rw [if_pos hdup]; rfl
    · rw [if_neg hdup]
      obtain ⟨txt, htxt⟩ := Option.isSome_iff_exists.mp hser
      rw [pushedEntry_eq env c txt htxt]
      rfl
  · refine ⟨{ envW with toStringPretty := fun _ => none }, ⟨"/tmp", []⟩, [], cTest, ?_⟩
    rfl

theorem push_panic_iff_serialize_failure_witness :
    (SettingsManager.push envW ⟨"/tmp", []⟩ [] cTest).isSome :=
  push_panic_iff_serialize_failure.1 envW ⟨"/tmp", []⟩ [] cTest rfl

/-! Lemmas about `parseAll` and `load`. -/

theorem parseAll_none_of_mem (env : Env) (files : List DirFile) (f : DirFile)
    (hmem : f ∈ files) (hfail : f.contents.bind env.fromStr = none) :
    parseAll env files = none := by
  induction files with
  | nil => cases hmem
  | cons g rest ih =>
      rcases List.mem_cons.mp hmem with hg | hrest
      · subst hg
        cases hc : f.contents with
        | none => simp [parseAll, hc]
        | some txt =>
            rw [hc] at hfail
            simp only [Option.some_bind] at hfail
            simp [parseAll, hc, hfail]
      · cases hc : g.contents with
        | none => simp [parseAll, hc]
        | some txt =>
            cases hp : env.fromStr txt with
            | none => simp [parseAll, hc, hp]
            | some c => simp [parseAll, hc, hp, ih hrest]

theorem parseAll_isSome (env : Env) (files : List DirFile)
    (hall : ∀ f ∈ files, ∃ c, f.contents.bind env.fromStr = some c) :
    ∃ cs, parseAll env files = some cs := by
  induction files with
  | nil => exact ⟨[], rfl⟩
  | cons g rest ih =>
      obtain ⟨c, hc⟩ := hall g (List.mem_cons_self g rest)
      obtain ⟨cs, hcs⟩ := ih fun f hf => hall f (List.mem_cons_of_mem g hf)
      cases hg : g.contents with
      | none => rw [hg] at hc; exact absurd hc (by simp)
      | some txt =>
          rw [hg] at hc
          simp only [Option.some_bind] at hc
          exact ⟨c :: cs, by simp [parseAll, hg, hc, hcs]⟩

theorem parseAll_mem (env : Env) (files : List DirFile) (cs : List Content)
    (hrun : parseAll env files = some cs) (f : DirFile) (c : Content)
    (hmem : f ∈ files) (hparse : f.contents.bind env.fromStr = some c) :
    c ∈ cs := by
  induction files generalizing cs with
  | nil => cases hmem
  | cons g rest ih =>
      cases hg : g.contents with
      | none => simp [parseAll, hg] at hrun
      | some txt =>
          cases hp : env.fromStr txt with
          | none => simp [parseAll, hg, hp] at hrun
          | some c0 =>
              cases hrest : parseAll env rest with
              | none => simp [parseAll, hg, hp, hrest] at hrun
              | some cs0 =>
                  have hcs : cs = c0 :: cs0 := by
                    simp [parseAll, hg, hp, hrest] at hrun
                    exact hrun.symm
                  subst hcs
                  rcases List.mem_cons.mp hmem with hf | hf
                  · subst hf
                    rw [hg] at hparse
                    simp only [Option.some_bind] at hparse
                    rw [hp] at hparse
                    exact List.mem_cons.mpr (Or.inl (Option.some.inj hparse).symm)
                  · exact List.mem_cons.mpr (Or.inr (ih cs0 hrest hf))

/-- C4: load is fail-fast — when the directory cannot be read, or when any
single matching ".toml" file fails to open, read or parse, the whole load
panics (no per-file recovery, no resulting manager state at all). -/
theorem load_fail_fast :
    (∀ (env : Env) (m : SettingsManager),
      SettingsManager.load env m none = none)
    ∧ (∀ (env : Env) (m : SettingsManager) (es : List (Option DirFile)) (f : DirFile),
      f ∈ matchingFiles es →
      f.contents.bind env.fromStr = none →
      SettingsManager.load env m (some es) = none) := by
  constructor
  · intro env m; rfl
  · intro env m es f hmem hfail
    show (parseAll env (matchingFiles es)).map
        (fun cs => ({ m with settings := m.settings ++ cs } : SettingsManager)) = none
    rw [parseAll_none_of_mem env (matchingFiles es) f hmem hfail]
    rfl

/-- Directory with a single unparsable ".toml" file. -/
def badFile : DirFile := ⟨"bad.toml", some "not toml"⟩

theorem load_fail_fast_witness :
    SettingsManager.load envW ⟨"/tmp", []⟩ none = none
    ∧ SettingsManager.load envW ⟨"/tmp", []⟩ (some [some badFile]) = none :=
  ⟨load_fail_fast.1 envW ⟨"/tmp", []⟩,
   load_fail_fast.2 envW ⟨"/tmp", []⟩ [some badFile] badFile
     (List.mem_singleton.mpr rfl) rfl⟩

/-- C8: a successful load never removes or modifies entries already in
memory: the path is unchanged and the prior entries stay, in their
positions, as a prefix of the result; and running the same load again
appends the same parsed entries once more (duplicates accumulate). -/
theorem load_append_only (env : Env) (m m2 : SettingsManager) (dir : DirListing)
    (h : SettingsManager.load env m dir = some m2) :
    m2.path = m.path
    ∧ ∃ cs, m2.settings = m.settings ++ cs
      ∧ SettingsManager.load env m2 dir = some ⟨m.path, (m.settings ++ cs) ++ cs⟩ := by
  cases dir with
  | none => exact Option.noConfusion h
  | some es =>
      have h2 : (parseAll env (matchingFiles es)).map
          (fun cs => ({ m with settings := m.settings ++ cs } : SettingsManager)) = some m2 := h
      cases hp : parseAll env (matchingFiles es) with
      | none => rw [hp] at h2; exact Option.noConfusion h2
      | some cs =>
          rw [hp] at h2
          have hm2 : ({ m with settings := m.settings ++ cs } : SettingsManager) = m2 :=
            Option.some.inj h2
          subst hm2
          refine ⟨rfl, cs, rfl, ?_⟩
          show (parseAll env (matchingFiles es)).map
              (fun cs2 => ({ path := m.path, settings := (m.settings ++ cs) ++ cs2 }
                : SettingsManager)) = some ⟨m.path, (m.settings ++ cs) ++ cs⟩
          rw [hp]
          rfl

/-- Environment whose parser always yields the stored `cTestPushed`. -/
def envL : Env := { envW with fromStr := fun _ => some cTestPushed }

theorem load_append_only_witness :
    (⟨"/tmp", [cTestPushed, cTestPushed]⟩ : SettingsManager).path
        = (⟨"/tmp", [cTestPushed]⟩ : SettingsManager).path
    ∧ ∃ cs, (⟨"/tmp", [cTestPushed, cTestPushed]⟩ : SettingsManager).settings
          = (⟨"/tmp", [cTestPushed]⟩ : SettingsManager).settings ++ cs
        ∧ SettingsManager.load envL ⟨"/tmp", [cTestPushed, cTestPushed]⟩
            (dirOfFs [("a.toml", "T")])
          = some ⟨"/tmp", ([cTestPushed] ++ cs) ++ cs⟩ :=
  load_append_only envL ⟨"/tmp", [cTestPushed]⟩ ⟨"/tmp", [cTestPushed, cTestPushed]⟩
    (dirOfFs [("a.toml", "T")]) rfl

/-- C9: the default base path is the literal string "~/.config/<pkg>" — the
leading tilde is kept verbatim, nothing expands it; a supplied path is used
exactly as given; and construction is exactly a load on the resulting
manager (`new` always calls `load` on the base path). -/
theorem construction_path_and_load :
    (∀ pkg : String, (SettingsManager.mkDefault pkg).path = "~/.config/" ++ pkg
      ∧ (SettingsManager.mkDefault pkg).path.data.take 2 = ['~', '/'])
    ∧ (∀ (env : Env) (pkg p : String) (dir : DirListing),
      SettingsManager.new env pkg (some p) dir = SettingsManager.load env ⟨p, []⟩ dir)
    ∧ (∀ (env : Env) (pkg : String) (dir : DirListing),
      SettingsManager.new env pkg none dir
        = SettingsManager.load env ⟨"~/.config/" ++ pkg, []⟩ dir) := by
  refine ⟨fun pkg => ⟨rfl, ?_⟩, fun env pkg p dir => rfl, fun env pkg dir => rfl⟩
  show ("~/.config/" ++ pkg).data.take 2 = ['~', '/']
  rw [String.data_append, List.take_append_of_le_length (by decide)]
  rfl

/-! Lemmas about the filesystem and `saveAll`. -/

theorem fsRead_fsWrite_self (fs : Fs) (n d : String) :
    fsRead (fsWrite fs n d) n = some d := by
  induction fs with
  | nil => simp [fsWrite, fsRead]
  | cons p rest ih =>
      by_cases hp : p.1 = n
      · simp [fsWrite, fsRead, hp]
      · simp [fsWrite, fsRead, hp, ih]

theorem fsRead_fsWrite_other (fs : Fs) (n d n2 : String) (h : n2 ≠ n) :
    fsRead (fsWrite fs n d) n2 = fsRead fs n2 := by
  induction fs with
  | nil => simp [fsWrite, fsRead, Ne.symm h]
  | cons p rest ih =>
      by_cases hp : p.1 = n
      · simp [fsWrite, fsRead, hp, Ne.symm h]
      · by_cases hq : p.1 = n2
        · simp [fsWrite, fsRead, hp, hq, h]
        · simp [fsWrite, fsRead, hp, hq, ih]

theorem saveAll_none_of_failure (env : Env) (entries : List Content) (fs : Fs)
    (h : ∃ s ∈ entries, env.createOk (saveFileName s.header.name) = false
      ∨ env.toStringPretty s = none) :
    saveAll env fs entries = none := by
  induction entries generalizing fs with
  | nil => obtain ⟨s, hs, _⟩ := h; cases hs
  | cons s0 rest ih =>
      obtain ⟨s, hs, hfail⟩ := h
      by_cases hc : env.createOk (saveFileName s0.header.name) = true
      · cases hp : env.toStringPretty s0 with
        | none => simp [saveAll, hc, hp]
        | some txt =>
            rcases List.mem_cons.mp hs with h0 | hrest
            · subst h0
              rcases hfail with hfc | hfs
              · rw [hc] at hfc; exact absurd hfc (by simp)
              · rw [hp] at hfs; exact absurd hfs (by simp)
            · simp only [saveAll, hc, hp, if_true]
              exact ih _ ⟨s, hrest, hfail⟩
      · simp [saveAll, hc]

theorem saveAll_isSome (env : Env) (entries : List Content) (fs : Fs)
    (h : ∀ s ∈ entries, env.createOk (saveFileName s.header.name) = true
      ∧ (env.toStringPretty s).isSome) :
    (saveAll env fs entries).isSome := by
  induction entries generalizing fs with
  | nil => rfl
  | cons s0 rest ih =>
      obtain ⟨hc, hp⟩ := h s0 (List.mem_cons_self s0 rest)
      obtain ⟨txt, htxt⟩ := Option.isSome_iff_exists.mp hp
      simp only [saveAll, hc, htxt, if_true]
      exact ih _ fun s hs => h s (List.mem_cons_of_mem s0 hs)

theorem saveAll_spec (env : Env) (entries : List Content) (fs fs2 : Fs)
    (hnodup : (entries.map fun s => saveFileName s.header.name).Nodup)
    (hok : ∀ s ∈ entries, env.createOk (saveFileName s.header.name) = true
      ∧ env.writeOk (saveFileName s.header.name) = true)
    (hrun : saveAll env fs entries = some fs2) :
    (∀ s ∈ entries, ∃ txt, env.toStringPretty s = some txt
      ∧ fsRead fs2 (saveFileName s.header.name) = some txt)
    ∧ (∀ n : String, (∀ s ∈ entries, saveFileName s.header.name ≠ n) →
        fsRead fs2 n = fsRead fs n) := by
  induction entries generalizing fs with
  | nil =>
      have hfs : fs = fs2 := Option.some.inj hrun
      subst hfs
      exact ⟨fun s hs => absurd hs (List.not_mem_nil s), fun n _ => rfl⟩
  | cons s0 rest ih =>
      obtain ⟨hc, hw⟩ := hok s0 (List.mem_cons_self s0 rest)
      cases hp : env.toStringPretty s0 with
      | none => rw [saveAll_none_of_failure env (s0 :: rest) fs
          ⟨s0, List.mem_cons_self s0 rest, Or.inr hp⟩] at hrun; exact Option.noConfusion hrun
      | some txt =>
          have hrun2 : saveAll env
              (fsWrite fs (saveFileName s0.header.name) txt) rest = some fs2 := by
            rw [← hrun]
            simp [saveAll, hc, hp, hw]
          have hnotin : ∀ s ∈ rest, saveFileName s.header.name ≠ saveFileName s0.header.name := by
            intro s hs heq
            have hmem : saveFileName s.header.name
                ∈ List.map (fun s => saveFileName s.header.name) rest :=
              List.mem_map_of_mem (fun s => saveFileName s.header.name) hs
            rw [heq] at hmem
            exact (List.nodup_cons.mp hnodup).1 hmem
          obtain ⟨ihmem, ihframe⟩ := ih _ (List.nodup_cons.mp hnodup).2
            (fun s hs => hok s (List.mem_cons_of_mem s0 hs)) hrun2
          constructor
          · intro s hs
            rcases List.mem_cons.mp hs with h0 | hrest
            · subst h0
              refine ⟨txt, hp, ?_⟩
              rw [ihframe _ hnotin]
              exact fsRead_fsWrite_self fs _ txt
            · exact ihmem s hrest
          · intro n hn
            rw [ihframe n fun s hs => hn s (List.mem_cons_of_mem s0 hs)]
            exact fsRead_fsWrite_other fs _ txt n
              (fun h => hn s0 (List.mem_cons_self s0 rest) h.symm)

/-! Claims about `save`. -/

/-- The claimed failure policy of C3, as stated: any write or serialization
failure for a single entry makes the whole save fatal. -/
def saveFailureAlwaysFatal : Prop :=
  ∀ (env : Env) (fs : Fs) (m : SettingsManager),
    (∃ s ∈ m.settings, env.toStringPretty s = none
      ∨ env.writeOk (saveFileName s.header.name) = false) →
    SettingsManager.save env fs m = none

/-- Environment where every `write_all` fails but everything else works. -/
def envBadWrite : Env := { envW with writeOk := fun _ => false }

/-- C3 counterexample: with a failing `write_all` on the single entry
"test" (creation and serialization succeeding), save completes normally —
it returns the filesystem with the file truncated to empty instead of
aborting.  The `let _ = file.write_all(...)` in the source discards the
error, so a write failure is silently ignored, contradicting the claim. -/
theorem save_write_failure_not_fatal : ¬ saveFailureAlwaysFatal := by
  intro h
  have h2 := h envBadWrite [] ⟨"/tmp", [cTest]⟩
    ⟨cTest, List.mem_singleton.mpr rfl, Or.inr rfl⟩
  rw [show SettingsManager.save envBadWrite [] ⟨"/tmp", [cTest]⟩
      = some [("test.toml", "")] from rfl] at h2
  exact Option.noConfusion h2

/-- C3 amended: a `File::create` failure or a serialization failure on any
entry is fatal to the whole save (an unwrap/panic, no error returned), but
a failure of `write_all` itself is silently ignored: whenever creation and
serialization succeed for every entry, save completes normally regardless
of whether the writes succeed. -/
theorem save_failure_policy :
    (∀ (env : Env) (fs : Fs) (m : SettingsManager),
      (∃ s ∈ m.settings, env.createOk (saveFileName s.header.name) = false
        ∨ env.toStringPretty s = none) →
      SettingsManager.save env fs m = none)
    ∧ (∀ (env : Env) (fs : Fs) (m : SettingsManager),
      (∀ s ∈ m.settings, env.createOk (saveFileName s.header.name) = true
        ∧ (env.toStringPretty s).isSome) →
      (SettingsManager.save env fs m).isSome) :=
  ⟨fun env fs m h => saveAll_none_of_failure env m.settings fs h,
   fun env fs m h => saveAll_isSome env m.settings fs h⟩

theorem save_failure_policy_witness :
    SettingsManager.save { envW with createOk := fun _ => false } [] ⟨"/tmp", [cTest]⟩ = none
    ∧ (SettingsManager.save envBadWrite [] ⟨"/tmp", [cTest]⟩).isSome :=
  ⟨save_failure_policy.1 { envW with createOk := fun _ => false } [] ⟨"/tmp", [cTest]⟩
      ⟨cTest, List.mem_singleton.mpr rfl, Or.inl rfl⟩,
   save_failure_policy.2 envBadWrite [] ⟨"/tmp", [cTest]⟩
      fun s hs => ⟨rfl, by rcases List.mem_singleton.mp hs with h; subst h; rfl⟩⟩

/-- The claimed file naming of C7, as stated: every entry is saved at the
entry's name with the ".toml" extension appended to it. -/
def savedAtNamePlusToml : Prop :=
  ∀ (env : Env) (fs fs2 : Fs) (m : SettingsManager),
    SettingsManager.save env fs m = some fs2 →
    ∀ s ∈ m.settings, ∃ d, (s.header.name ++ ".toml", d) ∈ fs2

/-- Entry whose name already carries an extension-like dotted suffix. -/
def cDotted : Content := Content.mk (Header.mk "dotted.name" false "h" "d") none

/-- C7 counterexample: the entry named "dotted.name" is saved to
"dotted.toml", because `set_extension` replaces the existing extension
"name" instead of appending ".toml"; the claimed path "dotted.name.toml"
is written nowhere. -/
theorem save_replaces_extension : ¬ savedAtNamePlusToml := by
  intro h
  obtain ⟨d, hd⟩ := h envW [] [("dotted.toml", "TXT")] ⟨"/tmp", [cDotted]⟩ rfl
    cDotted (List.mem_singleton.mpr rfl)
  have h2 := List.mem_singleton.mp hd
  have h3 : "dotted.name" ++ ".toml" = "dotted.toml" := congrArg Prod.fst h2
  exact absurd h3 (by decide)

/-- C7 amended: in a fully successful save whose entries map to pairwise
distinct file names, each entry gets one file named
`set_extension(name, "toml")` — the entry name with any existing extension
replaced by "toml" (name + ".toml" only when the name has none) — holding
the entry's pretty serialization in full, and every other file of the base
directory is untouched. -/
theorem save_file_layout (env : Env) (fs fs2 : Fs) (m : SettingsManager)
    (hnodup : (m.settings.map fun s => saveFileName s.header.name).Nodup)
    (hok : ∀ s ∈ m.settings, env.createOk (saveFileName s.header.name) = true
      ∧ env.writeOk (saveFileName s.header.name) = true)
    (hrun : SettingsManager.save env fs m = some fs2) :
    (∀ s ∈ m.settings, ∃ txt, env.toStringPretty s = some txt
      ∧ fsRead fs2 (saveFileName s.header.name) = some txt)
    ∧ (∀ n : String, (∀ s ∈ m.settings, saveFileName s.header.name ≠ n) →
        fsRead fs2 n = fsRead fs n) :=
  saveAll_spec env m.settings fs fs2 hnodup hok hrun

theorem save_file_layout_witness :
    (∀ s ∈ [cTest], ∃ txt, envW.toStringPretty s = some txt
      ∧ fsRead [("other.txt", "o"), ("test.toml", "TXT")] (saveFileName s.header.name) = some txt)
    ∧ (∀ n : String, (∀ s ∈ [cTest], saveFileName s.header.name ≠ n) →
        fsRead [("other.txt", "o"), ("test.toml", "TXT")] n = fsRead [("other.txt", "o")] n) :=
  save_file_layout envW [("other.txt", "o")] [("other.txt", "o"), ("test.toml", "TXT")]
    ⟨"/tmp", [cTest]⟩ (by simp) (fun s hs => ⟨rfl, rfl⟩) rfl

/-! String lemmas: the file name written by save always carries the "toml"
extension that load filters for, provided the entry name is nonempty. -/

theorem data_ne_nil (n : String) (hn : n ≠ "") : n.data ≠ [] :=
  fun h => hn (String.ext h)

theorem extSplit_append_dot (b a : List Char) (ha : extSplit a = none) :
    extSplit (b ++ '.' :: a) = some (b, a) := by
  induction b with
  | nil => simp [extSplit, ha]
  | cons c bs ih => simp [extSplit, ih]

theorem pathExtension_eq_some (name : String) (stem ext : List Char) (hs : stem ≠ [])
    (h : extSplit name.toList = some (stem, ext)) :
    pathExtension name = some (String.mk ext) := by
  unfold pathExtension
  rw [h]
  obtain ⟨d, ds, hds⟩ := List.exists_cons_of_ne_nil hs
  subst hds
  rfl

theorem pathExtension_saveFileName (n : String) (hn : n ≠ "") :
    pathExtension (saveFileName n) = some "toml" := by
  have htoml : extSplit "toml".toList = none := rfl
  have happend : pathExtension (n ++ "." ++ "toml") = some "toml" := by
    have h1 : extSplit ((n ++ "." ++ "toml").toList) = some (n.toList, "toml".toList) := by
      have hdata : (n ++ "." ++ "toml").toList = n.toList ++ '.' :: "toml".toList := by
        show ((n ++ "." ++ "toml").data) = n.data ++ '.' :: "toml".data
        rw [String.data_append, String.data_append, List.append_assoc]
        rfl
      rw [hdata]
      exact extSplit_append_dot n.toList "toml".toList htoml
    exact pathExtension_eq_some _ n.toList _ (data_ne_nil n hn) h1
  unfold saveFileName setExtension
  cases hsplit : extSplit n.toList with
  | none => exact happend
  | some pair =>
      obtain ⟨stem0, ext0⟩ := pair
      cases stem0 with
      | nil => exact happend
      | cons d0 ds0 =>
          have h1 : extSplit ((String.mk (d0 :: ds0) ++ "." ++ "toml").toList)
              = some (d0 :: ds0, "toml".toList) := by
            have hdata : (String.mk (d0 :: ds0) ++ "." ++ "toml").toList
                = (d0 :: ds0) ++ '.' :: "toml".toList := by
              show ((String.mk (d0 :: ds0) ++ "." ++ "toml").data)
                  = (d0 :: ds0) ++ '.' :: "toml".data
              rw [String.data_append, String.data_append, List.append_assoc]
              rfl
            rw [hdata]
            exact extSplit_append_dot (d0 :: ds0) "toml".toList htoml
          exact pathExtension_eq_some _ (d0 :: ds0) _ (by simp) h1

/-! Composition lemmas for the add/save/load pipeline. -/

theorem pushedEntry_settings (env : Env) (c e : Content) (h : pushedEntry env c = some e) :
    e.settings = c.settings := by
  cases henv : env.toStringPretty (stampContent env c) with
  | none => simp only [pushedEntry, henv] at h; exact Option.noConfusion h
  | some txt =>
      rw [pushedEntry_eq env c txt henv] at h
      injection h with h2
      rw [← h2]
      rfl

theorem push_success_eq (env : Env) (m : SettingsManager) (fs : Fs) (c : Content)
    (m1 : SettingsManager) (fs1 : Fs)
    (hfresh : ∀ s ∈ m.settings, ¬ s.header.name = c.header.name)
    (h : SettingsManager.push env m fs c = some (m1, fs1)) :
    ∃ e, pushedEntry env c = some e
      ∧ m1 = { m with settings := m.settings ++ [e] } ∧ fs1 = fs := by
  unfold SettingsManager.push at h
  rw [if_neg (by rw [find?_name_isSome_iff]; push_neg; exact hfresh)] at h
  cases he : pushedEntry env c with
  | none => rw [he] at h; exact Option.noConfusion h
  | some e =>
      rw [he] at h
      have h2 : some (({ m with settings := m.settings ++ [e] } : SettingsManager), fs)
          = some (m1, fs1) := h
      have h3 := Option.some.inj h2
      exact ⟨e, rfl, (congrArg Prod.fst h3).symm, (congrArg Prod.snd h3).symm⟩

theorem fsWrite_self_mem (fs : Fs) (n d : String) : (n, d) ∈ fsWrite fs n d := by
  induction fs with
  | nil => simp [fsWrite]
  | cons p rest ih =>
      by_cases hp : p.1 = n
      · simp [fsWrite, hp]
      · simp [fsWrite, hp, ih]

theorem fsWrite_mem_or (fs : Fs) (n d : String) (pr : String × String)
    (h : pr ∈ fsWrite fs n d) : pr = (n, d) ∨ pr ∈ fs := by
  induction fs with
  | nil => simp [fsWrite] at h; exact Or.inl h
  | cons p rest ih =>
      by_cases hp : p.1 = n
      · have h2 : pr ∈ (n, d) :: rest := by simpa [fsWrite, hp] using h
        rcases List.mem_cons.mp h2 with h3 | h3
        · exact Or.inl h3
        · exact Or.inr (List.mem_cons_of_mem p h3)
      · have h2 : pr ∈ p :: fsWrite rest n d := by simpa [fsWrite, hp] using h
        rcases List.mem_cons.mp h2 with h3 | h3
        · refine Or.inr ?_
          rw [h3]
          exact List.mem_cons_self p rest
        · rcases ih h3 with h4 | h4
          · exact Or.inl h4
          · exact Or.inr (List.mem_cons_of_mem p h4)

theorem saveAll_last_mem (env : Env) (entries : List Content) (fs : Fs) (s : Content)
    (fs2 : Fs) (hw : env.writeOk (saveFileName s.header.name) = true)
    (hrun : saveAll env fs (entries ++ [s]) = some fs2) :
    ∃ txt, env.toStringPretty s = some txt ∧ (saveFileName s.header.name, txt) ∈ fs2 := by
  induction entries generalizing fs with
  | nil =>
      by_cases hc : env.createOk (saveFileName s.header.name) = true
      · cases hp : env.toStringPretty s with
        | none =>
            rw [saveAll_none_of_failure env ([] ++ [s]) fs ⟨s, by simp, Or.inr hp⟩] at hrun
            exact Option.noConfusion hrun
        | some txt =>
            refine ⟨txt, rfl, ?_⟩
            have h2 : some (fsWrite fs (saveFileName s.header.name) txt) = some fs2 := by
              rw [← hrun]
              simp [saveAll, hc, hp, hw]
            rw [← Option.some.inj h2]
            exact fsWrite_self_mem fs _ txt
      · rw [saveAll_none_of_failure env ([] ++ [s]) fs
          ⟨s, by simp, Or.inl (by simpa using hc)⟩] at hrun
        exact Option.noConfusion hrun
  | cons s0 rest ih =>
      by_cases hc : env.createOk (saveFileName s0.header.name) = true
      · cases hp : env.toStringPretty s0 with
        | none =>
            rw [saveAll_none_of_failure env ((s0 :: rest) ++ [s]) fs
              ⟨s0, by simp, Or.inr hp⟩] at hrun
            exact Option.noConfusion hrun
        | some txt =>
            refine ih (fsWrite fs (saveFileName s0.header.name)
              (if env.writeOk (saveFileName s0.header.name) then txt else "")) ?_
            rw [← hrun]
            simp [saveAll, hc, hp]
      · rw [saveAll_none_of_failure env ((s0 :: rest) ++ [s]) fs
          ⟨s0, by simp, Or.inl (by simpa using hc)⟩] at hrun
        exact Option.noConfusion hrun

theorem saveAll_contents_from (env : Env) (S : List Content) (entries : List Content)
    (fs fs2 : Fs) (hsub : ∀ s ∈ entries, s ∈ S)
    (hfs : ∀ pr ∈ fs, ∃ ct ∈ S, env.toStringPretty ct = some pr.2)
    (hwrite : ∀ n, env.writeOk n = true)
    (hrun : saveAll env fs entries = some fs2) :
    ∀ pr ∈ fs2, ∃ ct ∈ S, env.toStringPretty ct = some pr.2 := by
  induction entries generalizing fs with
  | nil =>
      have h := Option.some.inj hrun
      subst h
      exact hfs
  | cons s0 rest ih =>
      by_cases hc : env.createOk (saveFileName s0.header.name) = true
      · cases hp : env.toStringPretty s0 with
        | none =>
            rw [saveAll_none_of_failure env (s0 :: rest) fs
              ⟨s0, List.mem_cons_self s0 rest, Or.inr hp⟩] at hrun
            exact Option.noConfusion hrun
        | some txt =>
            have hrun2 : saveAll env
                (fsWrite fs (saveFileName s0.header.name) txt) rest = some fs2 := by
              rw [← hrun]
              simp [saveAll, hc, hp, hwrite]
            refine ih _ (fun s hs => hsub s (List.mem_cons_of_mem s0 hs)) ?_ hrun2
            intro pr hpr
            rcases fsWrite_mem_or fs _ _ pr hpr with h1 | h1
            · exact ⟨s0, hsub s0 (List.mem_cons_self s0 rest), by rw [h1]; exact hp⟩
            · exact hfs pr h1
      · rw [saveAll_none_of_failure env (s0 :: rest) fs
          ⟨s0, List.mem_cons_self s0 rest, Or.inl (by simpa using hc)⟩] at hrun
        exact Option.noConfusion hrun

theorem filterMap_id_map_some {α : Type} (l : List α) (g : α → DirFile) :
    (l.map fun x => some (g x)).filterMap id = l.map g := by
  induction l with
  | nil => rfl
  | cons x xs ih => simp [ih]

/-- C2: add of a fresh nonempty name, then save, then a fresh construction
(load) on the same base path yields an entry of that name whose payload
deep-equals the original.  Hypotheses: the push and the save completed
(otherwise the process panics and yields nothing), every write succeeds,
and the serializer/parser pair round-trips the entries the manager saved —
the spec's own idempotent-persistence assumption about the toml library. -/
theorem add_save_load_roundtrip (env : Env) (pkg p : String)
    (m m1 : SettingsManager) (c : Content) (fs2 : Fs)
    (hname : c.header.name ≠ "")
    (hfresh : ∀ s ∈ m.settings, ¬ s.header.name = c.header.name)
    (hpush : SettingsManager.push env m [] c = some (m1, []))
    (hsave : SettingsManager.save env [] m1 = some fs2)
    (hwrite : ∀ n, env.writeOk n = true)
    (hself : ∀ ct ∈ m1.settings, ∀ txt,
      env.toStringPretty ct = some txt → env.fromStr txt = some ct) :
    ∃ m2, SettingsManager.new env pkg (some p) (dirOfFs fs2) = some m2
      ∧ ∃ e ∈ m2.settings, e.header.name = c.header.name ∧ e.settings = c.settings := by
  obtain ⟨e, he, hm1, -⟩ := push_success_eq env m [] c m1 [] hfresh hpush
  subst hm1
  have hsave2 : saveAll env [] (m.settings ++ [e]) = some fs2 := hsave
  obtain ⟨txt, htxt, hmem⟩ :=
    saveAll_last_mem env m.settings [] e fs2 (hwrite _) hsave2
  have hser : ∀ pr ∈ fs2, ∃ ct ∈ m.settings ++ [e], env.toStringPretty ct = some pr.2 :=
    saveAll_contents_from env (m.settings ++ [e]) (m.settings ++ [e]) [] fs2
      (fun s hs => hs) (by simp) hwrite hsave2
  have hmatch : matchingFiles (fs2.map fun pr => some (DirFile.mk pr.1 (some pr.2)))
      = (fs2.map fun pr => DirFile.mk pr.1 (some pr.2)).filter
        (fun f => pathExtension f.name == some "toml") := by
    unfold matchingFiles
    rw [filterMap_id_map_some]
  have hallparse : ∀ f ∈ matchingFiles (fs2.map fun pr => some (DirFile.mk pr.1 (some pr.2))),
      ∃ cc, f.contents.bind env.fromStr = some cc := by
    intro f hf
    rw [hmatch] at hf
    obtain ⟨pr, hpr, hfeq⟩ := List.mem_map.mp (List.mem_of_mem_filter hf)
    obtain ⟨ct, hctmem, hct⟩ := hser pr hpr
    refine ⟨ct, ?_⟩
    rw [← hfeq]
    simp only [Option.some_bind]
    exact hself ct (by simpa using hctmem) pr.2 hct
  obtain ⟨cs, hcs⟩ := parseAll_isSome env _ hallparse
  have hename : e.header.name = c.header.name := pushedEntry_name env c e he
  have hfe : DirFile.mk (saveFileName e.header.name) (some txt)
      ∈ matchingFiles (fs2.map fun pr => some (DirFile.mk pr.1 (some pr.2))) := by
    rw [hmatch]
    refine List.mem_filter.mpr ⟨?_, ?_⟩
    · exact List.mem_map.mpr ⟨(saveFileName e.header.name, txt), hmem, rfl⟩
    · have hext : pathExtension (saveFileName e.header.name) = some "toml" :=
        pathExtension_saveFileName e.header.name (by rw [hename]; exact hname)
      simp [hext]
  have hparse_e : (DirFile.mk (saveFileName e.header.name) (some txt)).contents.bind env.fromStr
      = some e := by
    simp only [Option.some_bind]
    exact hself e (by simp) txt htxt
  have hein : e ∈ cs := parseAll_mem env _ cs hcs _ e hfe hparse_e
  refine ⟨⟨p, [] ++ cs⟩, ?_, e, by simpa using hein, hename,
    pushedEntry_settings env c e he⟩
  show (parseAll env (matchingFiles (fs2.map fun pr => some (DirFile.mk pr.1 (some pr.2))))).map
      (fun cs2 => ({ path := p, settings := ([] : List Content) ++ cs2 } : SettingsManager))
      = some ⟨p, [] ++ cs⟩
  rw [hcs]
  rfl

theorem add_save_load_roundtrip_witness :
    ∃ m2, SettingsManager.new envL "app" (some "/cfg") (dirOfFs [("test.toml", "TXT")]) = some m2
      ∧ ∃ e ∈ m2.settings, e.header.name = cTest.header.name
        ∧ e.settings = cTest.settings :=
  add_save_load_roundtrip envL "app" "/cfg" ⟨"/tmp", []⟩ ⟨"/tmp", [cTestPushed]⟩ cTest
    [("test.toml", "TXT")] (by decide) (by simp) rfl rfl (fun n => rfl)
    (by
      intro ct hct txt h1
      rcases List.mem_singleton.mp hct with h2
      subst h2
      rfl)

/-- C6: the stored hash is the hex SHA-1 digest of the entry's pretty
serialization taken before the hash field is populated — the hashed text
is the serialization of the stamped entry that still carries the caller's
prior hash value, not a digest of the final written form — and nothing
ever re-verifies it: load appends every parsed entry verbatim, whatever
its hash field holds, with no check against the file contents. -/
theorem hash_prepopulated_never_verified :
    (∀ (env : Env) (c e : Content), pushedEntry env c = some e →
      ∃ txt, env.toStringPretty (stampContent env c) = some txt
        ∧ e.header.hash = env.sha1hex txt
        ∧ (stampContent env c).header.hash = c.header.hash)
    ∧ (∀ (env : Env) (m : SettingsManager) (f : DirFile) (c : Content),
      pathExtension f.name = some "toml" →
      f.contents.bind env.fromStr = some c →
      SettingsManager.load env m (some [some f]) = some ⟨m.path, m.settings ++ [c]⟩) := by
  constructor
  · intro env c e he
    cases henv : env.toStringPretty (stampContent env c) with
    | none => simp only [pushedEntry, henv] at he; exact Option.noConfusion he
    | some txt =>
        rw [pushedEntry_eq env c txt henv] at he
        injection he with h2
        exact ⟨txt, rfl, by rw [← h2]; rfl, rfl⟩
  · intro env m f c hext hparse
    cases hfc : f.contents with
    | none => rw [hfc] at hparse; exact absurd hparse (by simp)
    | some txt =>
        rw [hfc] at hparse
        simp only [Option.some_bind] at hparse
        show (parseAll env (matchingFiles [some f])).map
            (fun cs => ({ m with settings := m.settings ++ cs } : SettingsManager))
            = some ⟨m.path, m.settings ++ [c]⟩
        have hm : matchingFiles [some f] = [f] := by
          simp [matchingFiles, hext]
        rw [hm]
        simp [parseAll, hfc, hparse]

theorem hash_prepopulated_never_verified_witness :
    (∃ txt, envW.toStringPretty (stampContent envW cTest) = some txt
      ∧ cTestPushed.header.hash = envW.sha1hex txt
      ∧ (stampContent envW cTest).header.hash = cTest.header.hash)
    ∧ SettingsManager.load envL ⟨"/tmp", []⟩ (some [some ⟨"a.toml", some "T"⟩])
        = some ⟨"/tmp", [] ++ [cTestPushed]⟩ :=
  ⟨hash_prepopulated_never_verified.1 envW cTest cTestPushed rfl,
   hash_prepopulated_never_verified.2 envL ⟨"/tmp", []⟩ ⟨"a.toml", some "T"⟩ cTestPushed rfl rfl⟩

end RestSettings
